import Mathlib

/-
Verification of the structural patch engine of quipubase-client-python
(src/quipubase/partial.py).

Two embeddings are developed:

1. A pure value model (`Val`, `applyVal`, ...) that mirrors `Partial.value`
   and its helpers `_partial_base_model`, `_partial_dict`, `_partial_list`,
   `_merge_dicts`, `_merge_lists`, together with the `__new__` validation of
   the `Partial` class and the `create_typed_partial` factory.  Python values
   are modelled by the inductive `Val`: BaseModel instances become `recV`
   (class name plus field assignment; a pydantic instance carries exactly its
   declared fields, so the field list doubles as the class's type hints),
   dicts become `dictV` over association lists in insertion order, lists
   become `listV`, `Partial` instances become `partV` holding their `data`
   dict, and remaining scalars keep their payloads.  `ValueError` raised by
   `Partial.__new__` is modelled by `Except PErr`.

2. A heap model (`Heap`, `applyH`, ...) with explicit addresses, used for the
   non-mutation claim: cells are mutable Python objects, `copy.deepcopy`
   allocates fresh addresses, and `setattr` / item assignment write cells in
   place.  The theorem shows that applying a patch never writes any address
   that existed before the call.
-/

namespace QuipuPatch

/-- Python runtime values as seen by `Partial.value`
(src/quipubase/partial.py).  `partV` is a `Partial` instance holding its
`data` mapping; `recV` is a pydantic `BaseModel` instance with its class name
and fields. -/
inductive Val where
  | intV  : Int → Val
  | strV  : String → Val
  | boolV : Bool → Val
  | noneV : Val
  | dictV : List (String × Val) → Val
  | listV : List Val → Val
  | recV  : String → List (String × Val) → Val
  | partV : List (String × Val) → Val

/-- Error payload of the `ValueError` raised by `Partial.__new__`
(line 59 of partial.py): the model class name and the invalid field names. -/
abbrev PErr := String × List String

/-- Python dict lookup on an association list (first binding wins; a Python
dict has unique keys). -/
def alookup {α β : Type} [DecidableEq α] : List (α × β) → α → Option β
  | [], _ => none
  | (k, v) :: rest, key => if k = key then some v else alookup rest key

/-- Python dict item assignment semantics on an association list: an existing
key keeps its position, a new key is appended at the end.  Also models
`setattr` on a pydantic instance (every declared field is present, so only
the update case is exercised there). -/
def aset {α β : Type} [DecidableEq α] : List (α × β) → α → β → List (α × β)
  | [], key, v => [(key, v)]
  | (k, w) :: rest, key, v =>
    if k = key then (key, v) :: rest else (k, w) :: aset rest key v

/-- The `isinstance(original_value, (dict, list, BaseModel))` test of
line 110 of partial.py. -/
def isComplexV : Val → Bool
  | .dictV _ => true
  | .listV _ => true
  | .recV _ _ => true
  | _ => false

/-- True when a patch value falls through every structured branch of the
per-item dispatch and is assigned directly (it is not a `Partial`, not a
dict and not a list). -/
def isPlainV : Val → Bool
  | .partV _ => false
  | .dictV _ => false
  | .listV _ => false
  | _ => true

/-- Digit run of a Python integer literal body: after a first digit, single
underscores are allowed between digits (`int("1_0") == 10`,
`int("1__0")` and `int("1_")` raise). -/
def digitsRest : List Char → Bool
  | [] => true
  | '_' :: c :: rest => c.isDigit && digitsRest rest
  | '_' :: [] => false
  | c :: rest => c.isDigit && digitsRest rest

/-- Nonempty digit run with optional single underscores between digits. -/
def validDigits : List Char → Bool
  | [] => false
  | c :: rest => c.isDigit && digitsRest rest

/-- Numeric value of a digit-and-underscore run. -/
def digitsToNat (cs : List Char) : Nat :=
  cs.foldl (fun acc c => if c = '_' then acc else acc * 10 + (c.toNat - 48)) 0

/-- Model of Python `int(s)` on a string index key (line 188 of partial.py):
surrounding whitespace is stripped, an optional sign precedes a nonempty
digit run; `none` models the `ValueError` raised for non-numeric keys. -/
def pyInt (s : String) : Option Int :=
  let cs := ((s.toList.dropWhile Char.isWhitespace).reverse.dropWhile
      Char.isWhitespace).reverse
  match cs with
  | '-' :: rest =>
    if validDigits rest then some (-(digitsToNat rest : Int)) else none
  | '+' :: rest =>
    if validDigits rest then some ((digitsToNat rest : Int)) else none
  | rest =>
    if validDigits rest then some ((digitsToNat rest : Int)) else none

/-- Embeds `Partial._merge_lists` (lines 232-244 of partial.py): the patch
list wholesale-replaces the original. -/
def mergeLists (_original new : List Val) : List Val := new

/-- Embeds `Partial._merge_dicts` (lines 211-230 of partial.py): deep copy of
`original` updated key by key from `new`; when both sides hold dicts at a key
the merge recurses, otherwise the patch value overwrites. -/
def mergeDicts (result : List (String × Val)) :
    List (String × Val) → List (String × Val)
  | [] => result
  | (k, v) :: rest =>
    match alookup result k, v with
    | some (.dictV rd), .dictV vd =>
      mergeDicts (aset result k (.dictV (mergeDicts rd vd))) rest
    | _, _ => mergeDicts (aset result k v) rest
termination_by l => sizeOf l
decreasing_by
  all_goals simp_wf
  all_goals omega

/-- The invalid-field computation of `Partial.__new__` (line 55 of
partial.py): kwarg names that are not declared fields. -/
def invalidKeys (fields kwargs : List String) : List String :=
  kwargs.filter (fun k => !fields.contains k)

/-- The validation step of `Partial.__new__` (lines 52-59 of partial.py),
given the declared field names of the bound model class: raises `ValueError`
naming the class and the invalid keys when some kwarg is not a declared
field. -/
def specNewCheck (name : String) (fields : List String)
    (kwargs : List (String × Val)) : Except PErr Unit :=
  let inv := invalidKeys fields (kwargs.map Prod.fst)
  if inv.isEmpty then .ok () else .error (name, inv)

/-- A successful association-list lookup returns a strictly smaller value
(used for termination of the patch recursion). -/
theorem alookup_sizeOf {l : List (String × Val)} {k : String} {v : Val}
    (h : alookup l k = some v) : sizeOf v < sizeOf l := by
  induction l with
  | nil => simp [alookup] at h
  | cons hd tl ih =>
    obtain ⟨k1, v1⟩ := hd
    by_cases hk : k1 = k
    · simp [alookup, hk] at h
      subst h
      simp
      omega
    · simp [alookup, hk] at h
      have := ih h
      simp
      omega

mutual

/-- Embeds `Partial.value` (lines 73-92 of partial.py): dispatch on the
runtime category of the original value.  `data` is the `Partial`'s `data`
dict.  BaseModel originals go through `_partial_base_model`, dicts through
`_partial_dict`, lists through `_partial_list` (inlined here), and anything
else through the scalar rule `self.data.get("value", original)`. -/
def applyVal (data : List (String × Val)) (v : Val) : Except PErr Val :=
  match v with
  | .recV n fs =>
    match applyModelGo data fs with
    | .ok fs2 => .ok (.recV n fs2)
    | .error e => .error e
  | .dictV m =>
    match applyDictGo data m with
    | .ok m2 => .ok (.dictV m2)
    | .error e => .error e
  | .listV l =>
    match hi : alookup data "items" with
    | some (.dictV entries) => .ok (.listV (applyListGo entries l))
    | some (.listV repl) => .ok (.listV repl)
    | some _ => .ok (.listV l)
    | none => .ok (.listV l)
  | other => .ok ((alookup data "value").getD other)
termination_by (sizeOf data, 1)
decreasing_by
  all_goals simp_wf
  all_goals
    first
      | exact Prod.Lex.right _ (by omega)
      | (apply Prod.Lex.left
         first
           | omega
           | (have hsz := alookup_sizeOf hi; simp at hsz; omega))

/-- Embeds the loop of `Partial._partial_base_model` (lines 104-129 of
partial.py) over the entries of `data`, threading the copied instance's
field assignment `fs`.  A key that is not an attribute is skipped
(`hasattr` guard, line 107). -/
def applyModelGo :
    List (String × Val) → List (String × Val) → Except PErr (List (String × Val))
  | [], fs => .ok fs
  | (key, pv) :: rest, fs =>
    match alookup fs key with
    | none => applyModelGo rest fs
    | some ov =>
      match pv with
      | .partV pd =>
        if isComplexV ov then
          match applyVal pd ov with
          | .ok w => applyModelGo rest (aset fs key w)
          | .error e => .error e
        else applyModelGo rest (aset fs key (.partV pd))
      | .listV pl =>
        match ov with
        | .listV ol => applyModelGo rest (aset fs key (.listV (mergeLists ol pl)))
        | _ => applyModelGo rest (aset fs key (.listV pl))
      | .dictV pd =>
        match ov with
        | .dictV od =>
          applyModelGo rest (aset fs key (.dictV (mergeDicts od pd)))
        | .recV n2 fs2 =>
          match specNewCheck n2 (fs2.map Prod.fst) pd with
          | .ok _ =>
            match applyVal pd (.recV n2 fs2) with
            | .ok w => applyModelGo rest (aset fs key w)
            | .error e => .error e
          | .error e => .error e
        | _ => applyModelGo rest (aset fs key (.dictV pd))
      | other => applyModelGo rest (aset fs key other)
termination_by l _ => (sizeOf l, 0)
decreasing_by
  all_goals simp_wf
  all_goals
    first
      | exact Prod.Lex.right _ (by omega)
      | (apply Prod.Lex.left
         first
           | omega
           | (have hsz := alookup_sizeOf hi; simp at hsz; omega))

/-- Embeds the loop of `Partial._partial_dict` (lines 141-164 of partial.py)
over the entries of `data`, threading the copied dict `m`.  A `Partial`
patch value recurses whatever the existing entry is; an absent key is
appended as-is (lines 160-162). -/
def applyDictGo :
    List (String × Val) → List (String × Val) → Except PErr (List (String × Val))
  | [], m => .ok m
  | (key, pv) :: rest, m =>
    match alookup m key with
    | none => applyDictGo rest (aset m key pv)
    | some ov =>
      match pv with
      | .partV pd =>
        match applyVal pd ov with
        | .ok w => applyDictGo rest (aset m key w)
        | .error e => .error e
      | .listV pl =>
        match ov with
        | .listV ol => applyDictGo rest (aset m key (.listV (mergeLists ol pl)))
        | _ => applyDictGo rest (aset m key (.listV pl))
      | .dictV pd =>
        match ov with
        | .dictV od => applyDictGo rest (aset m key (.dictV (mergeDicts od pd)))
        | _ => applyDictGo rest (aset m key (.dictV pd))
      | other => applyDictGo rest (aset m key other)
termination_by l _ => (sizeOf l, 0)
decreasing_by
  all_goals simp_wf
  all_goals
    first
      | exact Prod.Lex.right _ (by omega)
      | (apply Prod.Lex.left
         first
           | omega
           | (have hsz := alookup_sizeOf hi; simp at hsz; omega))

/-- Embeds the index loop of `Partial._partial_list` (lines 185-204 of
partial.py) over the entries of the `items` dict.  Non-numeric keys raise
`ValueError` inside `int(...)` and are skipped by the `except` clause; the
same clause also swallows a `ValueError` escaping a nested `value.value`
call, skipping that index.  Out-of-bounds indices fail the range guard and
are skipped. -/
def applyListGo : List (String × Val) → List Val → List Val
  | [], l => l
  | (ks, pv) :: rest, l =>
    match pyInt ks with
    | none => applyListGo rest l
    | some i =>
      if hb : 0 ≤ i ∧ i.toNat < l.length then
        match pv with
        | .partV pd =>
          match applyVal pd (l.get ⟨i.toNat, hb.2⟩) with
          | .ok w => applyListGo rest (l.set i.toNat w)
          | .error _ => applyListGo rest l
        | .listV pl =>
          match l.get ⟨i.toNat, hb.2⟩ with
          | .listV ol => applyListGo rest (l.set i.toNat (.listV (mergeLists ol pl)))
          | _ => applyListGo rest (l.set i.toNat (.listV pl))
        | .dictV pd =>
          match l.get ⟨i.toNat, hb.2⟩ with
          | .dictV od => applyListGo rest (l.set i.toNat (.dictV (mergeDicts od pd)))
          | _ => applyListGo rest (l.set i.toNat (.dictV pd))
        | other => applyListGo rest (l.set i.toNat other)
      else applyListGo rest l
termination_by l _ => (sizeOf l, 0)
decreasing_by
  all_goals simp_wf
  all_goals
    first
      | exact Prod.Lex.right _ (by omega)
      | (apply Prod.Lex.left
         first
           | omega
           | (have hsz := alookup_sizeOf hi; simp at hsz; omega))

end

/-- True exactly for Python dicts (the `isinstance(partial_items, dict)` test
of line 185 of partial.py). -/
def isDictV : Val → Bool
  | .dictV _ => true
  | _ => false

/-- True exactly for Python lists (the `isinstance(partial_items, list)` test
of line 206 of partial.py). -/
def isListV : Val → Bool
  | .listV _ => true
  | _ => false

/-- A base class expression as `Partial.__new__` (lines 44-50 of partial.py)
inspects one through `cls.__orig_bases__`.  `genericBase` is `Generic[T]`,
the only entry of `Partial.__orig_bases__` itself (the class is declared as
`class Partial(Generic[T])`, so a direct `Partial[User](...)` call, which
reaches `__new__` with `cls = Partial`, sees only this entry).
`appliedTo a` is a subscripted base `Partial[X]`; `a = none` models the
argument `Any`, which line 48 refuses to bind. -/
inductive TypeExpr where
  | genericBase : TypeExpr
  | appliedTo : Option String → TypeExpr

/-- The `__orig_bases__` scan of `Partial.__new__` (lines 44-50 of
partial.py): the first base whose `get_origin` is `Partial` and whose first
argument is not `Any` supplies the bound model type; `Generic[T]` has origin
`Generic`, not `Partial`, so it is skipped. -/
def findOriginType : List TypeExpr → Option String
  | [] => none
  | .genericBase :: rest => findOriginType rest
  | .appliedTo none :: rest => findOriginType rest
  | .appliedTo (some m) :: _ => some m

/-- The `__orig_bases__` tuple of the `TypedPartial` subclass produced by
`create_typed_partial` (lines 285-287 of partial.py): the single base
`Partial[model_type]`. -/
def createTypedSpecBases (m : String) : List TypeExpr := [.appliedTo (some m)]

/-- Embeds `Partial.__new__` (lines 30-62 of partial.py).  `bases` is the
class's `__orig_bases__`; `schemas` maps a class name to its declared field
names when the class is a pydantic `BaseModel` subclass (`get_type_hints`),
and to `none` otherwise.  Validation runs only when a bound model type is
found and is a `BaseModel` subclass; otherwise the instance (here: its
`data`, as set by `__init__`) is produced unconditionally. -/
def specNew (bases : List TypeExpr) (schemas : String → Option (List String))
    (kwargs : List (String × Val)) : Except PErr Val :=
  match findOriginType bases with
  | some m =>
    match schemas m with
    | some fields =>
      match specNewCheck m fields kwargs with
      | .ok _ => .ok (.partV kwargs)
      | .error e => .error e
    | none => .ok (.partV kwargs)
  | none => .ok (.partV kwargs)

/-- Modelled from the spec: the spec's own description of mapping-merge,
read at a single key.  "for each key in `b`, if both `a[key]` and `b[key]`
are mappings, recursively mapping-merge; else set `a[key] = b[key]`"; a key
of `a` that `b` lacks keeps the value of `a`.  Used to compare the source's
`_merge_dicts` against the spec sentence of C7. -/
def mergeSpecLookup (av bv : Option Val) : Option Val :=
  match bv with
  | none => av
  | some bw =>
    match av, bw with
    | some (.dictV ad), .dictV bd => some (.dictV (mergeDicts ad bd))
    | _, _ => some bw

/-- One step of the `_merge_dicts` loop (lines 224-228 of partial.py): the
update the loop body performs on the result for a single patch entry. -/
def mergeStep (a : List (String × Val)) (k1 : String) (v1 : Val) :
    List (String × Val) :=
  match alookup a k1, v1 with
  | some (.dictV rd), .dictV vd => aset a k1 (.dictV (mergeDicts rd vd))
  | _, _ => aset a k1 v1

/-
Heap model.  The non-mutation claim is about Python object identity: the
engine mutates objects in place with `setattr` and item assignment, and the
claim is that no object reachable before the call is ever written.  Cells
are Python objects; a cell holds addresses of its children.  Immutable
scalars are modelled as `scalarC` cells that are never written.
-/

/-- Scalar payload of an immutable Python object (int, str, bool, None). -/
inductive SVal where
  | intS : Int → SVal
  | strS : String → SVal
  | boolS : Bool → SVal
  | noneS : SVal
deriving Repr, DecidableEq

/-- One Python object: a scalar, a dict (insertion-ordered association of
keys to child addresses), a list of child addresses, a pydantic model
instance (class name and fields), or a `Partial` instance (its `data`
dict). -/
inductive HCell where
  | scalarC : SVal → HCell
  | dictC : List (String × Nat) → HCell
  | listC : List Nat → HCell
  | recC : String → List (String × Nat) → HCell
  | specC : List (String × Nat) → HCell
deriving Repr, DecidableEq

/-- The Python object heap: allocated cells and the next fresh address. -/
structure Heap where
  mem : List (Nat × HCell)
  next : Nat
deriving Repr, DecidableEq

/-- Decidable equality of call outcomes, used to evaluate concrete heap
runs. -/
instance : DecidableEq (Except PErr Nat) := fun x y =>
  match x, y with
  | .ok a, .ok b =>
    if h : a = b then .isTrue (by rw [h]) else .isFalse (fun hc => h (Except.ok.inj hc))
  | .error a, .error b =>
    if h : a = b then .isTrue (by rw [h]) else .isFalse (fun hc => h (Except.error.inj hc))
  | .ok _, .error _ => .isFalse (fun hc => Except.noConfusion hc)
  | .error _, .ok _ => .isFalse (fun hc => Except.noConfusion hc)

/-- Read the object at an address. -/
def hread (h : Heap) (a : Nat) : Option HCell := alookup h.mem a

/-- Mutate the object at an address in place (`setattr`, `result[key] = v`,
`result[idx] = v`). -/
def hwrite (h : Heap) (a : Nat) (c : HCell) : Heap :=
  { mem := aset h.mem a c, next := h.next }

/-- Allocate a fresh object. -/
def halloc (h : Heap) (c : HCell) : Heap × Nat :=
  ({ mem := h.mem ++ [(h.next, c)], next := h.next + 1 }, h.next)

mutual

/-- Heap model of `copy.deepcopy` as used at lines 105, 142, 181 and 222 of
partial.py: scalars are atomic and returned unchanged (as `deepcopy` does),
every container is rebuilt at a fresh address with recursively copied
children.  `deepcopy`'s memo table for shared substructure is not modelled
(sharing inside the copy never affects which pre-existing addresses are
written).  Fuel only bounds recursion depth. -/
def deepcopyH : Nat → Heap → Nat → Option (Heap × Nat)
  | 0, _, _ => none
  | fuel + 1, h, a =>
    match hread h a with
    | some (.scalarC _) => some (h, a)
    | some (.dictC es) =>
      match deepcopyFields fuel h es with
      | none => none
      | some (h1, es1) => some (halloc h1 (.dictC es1))
    | some (.listC xs) =>
      match deepcopyElems fuel h xs with
      | none => none
      | some (h1, xs1) => some (halloc h1 (.listC xs1))
    | some (.recC n es) =>
      match deepcopyFields fuel h es with
      | none => none
      | some (h1, es1) => some (halloc h1 (.recC n es1))
    | some (.specC es) =>
      match deepcopyFields fuel h es with
      | none => none
      | some (h1, es1) => some (halloc h1 (.specC es1))
    | none => none
termination_by structural n _ _ => n

/-- Deep copy of the children of a keyed container. -/
def deepcopyFields :
    Nat → Heap → List (String × Nat) → Option (Heap × List (String × Nat))
  | 0, _, _ => none
  | _ + 1, h, [] => some (h, [])
  | fuel + 1, h, (k, a) :: rest =>
    match deepcopyH fuel h a with
    | none => none
    | some (h1, a1) =>
      match deepcopyFields fuel h1 rest with
      | none => none
      | some (h2, rest1) => some (h2, (k, a1) :: rest1)
termination_by structural n _ _ => n

/-- Deep copy of the elements of a list. -/
def deepcopyElems : Nat → Heap → List Nat → Option (Heap × List Nat)
  | 0, _, _ => none
  | _ + 1, h, [] => some (h, [])
  | fuel + 1, h, a :: rest =>
    match deepcopyH fuel h a with
    | none => none
    | some (h1, a1) =>
      match deepcopyElems fuel h1 rest with
      | none => none
      | some (h2, rest1) => some (h2, a1 :: rest1)
termination_by structural n _ _ => n

end

mutual

/-- Heap model of `Partial.value` (lines 73-92 of partial.py).  `data` is the
`Partial`'s `data` dict (keys to value addresses), `a` the address of the
original.  The result is the final heap and either the address of the
updated value or the `ValueError` escaping the call; `none` means the fuel
bound was hit.  The `_partial_list` body (lines 166-209) is inlined in the
list branch. -/
def applyH : Nat → List (String × Nat) → Heap → Nat → Option (Heap × Except PErr Nat)
  | 0, _, _, _ => none
  | fuel + 1, data, h, a =>
    match hread h a with
    | some (.recC _ _) =>
      match deepcopyH fuel h a with
      | none => none
      | some (h1, r) =>
        match applyModelLoopH fuel data h1 r with
        | none => none
        | some (h2, .ok _) => some (h2, .ok r)
        | some (h2, .error e) => some (h2, .error e)
    | some (.dictC _) =>
      match deepcopyH fuel h a with
      | none => none
      | some (h1, r) =>
        match applyDictLoopH fuel data h1 r with
        | none => none
        | some (h2, .ok _) => some (h2, .ok r)
        | some (h2, .error e) => some (h2, .error e)
    | some (.listC _) =>
      match alookup data "items" with
      | none => some (h, .ok a)
      | some itemsA =>
        match deepcopyH fuel h a with
        | none => none
        | some (h1, r) =>
          match hread h1 itemsA with
          | some (.dictC entries) =>
            match applyListLoopH fuel entries h1 r with
            | none => none
            | some h2 => some (h2, .ok r)
          | some (.listC _) => some (h1, .ok itemsA)
          | some _ => some (h1, .ok r)
          | none => none
    | some _ => some (h, .ok ((alookup data "value").getD a))
    | none => none
termination_by structural n _ _ _ => n

/-- Heap model of the loop of `_partial_base_model` (lines 106-128): for each
patch entry whose key is an attribute of the copied instance at `root`,
compute the new attribute value and `setattr` it on `root`.  A `ValueError`
escaping a step aborts the loop (there is no `try` here) with the heap as
mutated so far. -/
def applyModelLoopH :
    Nat → List (String × Nat) → Heap → Nat → Option (Heap × Except PErr Unit)
  | 0, _, _, _ => none
  | _ + 1, [], h, _ => some (h, .ok ())
  | fuel + 1, (key, va) :: rest, h, root =>
    match hread h root with
    | some (.recC n fs) =>
      match alookup fs key with
      | none => applyModelLoopH fuel rest h root
      | some ovA =>
        match modelStepH fuel h va ovA with
        | none => none
        | some (h1, .error e) => some (h1, .error e)
        | some (h1, .ok newA) =>
          match hread h1 root with
          | some (.recC n1 fs1) =>
            applyModelLoopH fuel rest
              (hwrite h1 root (.recC n1 (aset fs1 key newA))) root
          | _ => none
    | _ => none
termination_by structural n _ _ _ => n

/-- Heap model of the per-entry dispatch of `_partial_base_model`
(lines 109-127): a `Partial` patch value recurses when the attribute holds a
dict, list or model; a dict patch value merges into a dict attribute, or is
validated against and applied to a model attribute (the ephemeral
`TypedPartial` instance built by `create_typed_partial` on line 123 is not
itself allocated: only its `ValueError` and its application matter); list
merge returns the patch's own list object (line 244); anything else is
assigned directly. -/
def modelStepH : Nat → Heap → Nat → Nat → Option (Heap × Except PErr Nat)
  | 0, _, _, _ => none
  | fuel + 1, h, va, ovA =>
    match hread h va with
    | some (.specC pd) =>
      match hread h ovA with
      | some (.dictC _) => applyH fuel pd h ovA
      | some (.listC _) => applyH fuel pd h ovA
      | some (.recC _ _) => applyH fuel pd h ovA
      | some _ => some (h, .ok va)
      | none => none
    | some (.listC _) => some (h, .ok va)
    | some (.dictC pd) =>
      match hread h ovA with
      | some (.dictC _) =>
        match mergeDictsH fuel h ovA va with
        | none => none
        | some (h1, r) => some (h1, .ok r)
      | some (.recC n2 fs2) =>
        match invalidKeys (fs2.map Prod.fst) (pd.map Prod.fst) with
        | [] => applyH fuel pd h ovA
        | inv => some (h, .error (n2, inv))
      | some _ => some (h, .ok va)
      | none => none
    | some _ => some (h, .ok va)
    | none => none
termination_by structural n _ _ _ => n

/-- Heap model of the loop of `_partial_dict` (lines 144-162): an existing
key is updated through the per-entry dispatch; an absent key is inserted
as-is. -/
def applyDictLoopH :
    Nat → List (String × Nat) → Heap → Nat → Option (Heap × Except PErr Unit)
  | 0, _, _, _ => none
  | _ + 1, [], h, _ => some (h, .ok ())
  | fuel + 1, (key, va) :: rest, h, root =>
    match hread h root with
    | some (.dictC m) =>
      match alookup m key with
      | none => applyDictLoopH fuel rest (hwrite h root (.dictC (aset m key va))) root
      | some ovA =>
        match pairStepH fuel h va ovA with
        | none => none
        | some (h1, .error e) => some (h1, .error e)
        | some (h1, .ok newA) =>
          match hread h1 root with
          | some (.dictC m1) =>
            applyDictLoopH fuel rest (hwrite h1 root (.dictC (aset m1 key newA))) root
          | _ => none
    | _ => none
termination_by structural n _ _ _ => n

/-- Heap model of the per-entry dispatch shared by `_partial_dict`
(lines 148-159) and the index loop of `_partial_list` (lines 192-202): a
`Partial` patch value recurses whatever the existing value is; dict merges
into dict; list replaces list (returning the patch's own list object, which
is also what direct assignment does); anything else is assigned directly. -/
def pairStepH : Nat → Heap → Nat → Nat → Option (Heap × Except PErr Nat)
  | 0, _, _, _ => none
  | fuel + 1, h, va, ovA =>
    match hread h va with
    | some (.specC pd) => applyH fuel pd h ovA
    | some (.listC _) => some (h, .ok va)
    | some (.dictC _) =>
      match hread h ovA with
      | some (.dictC _) =>
        match mergeDictsH fuel h ovA va with
        | none => none
        | some (h1, r) => some (h1, .ok r)
      | some _ => some (h, .ok va)
      | none => none
    | some _ => some (h, .ok va)
    | none => none
termination_by structural n _ _ _ => n

/-- Heap model of the index loop of `_partial_list` (lines 185-204): each
numeric in-bounds index is updated in place on the copied list at `root`;
non-numeric keys, out-of-bounds indices and steps that raise `ValueError`
are skipped by the `except` clause and the loop continues. -/
def applyListLoopH : Nat → List (String × Nat) → Heap → Nat → Option Heap
  | 0, _, _, _ => none
  | _ + 1, [], h, _ => some h
  | fuel + 1, (ks, va) :: rest, h, root =>
    match pyInt ks with
    | none => applyListLoopH fuel rest h root
    | some i =>
      match hread h root with
      | some (.listC xs) =>
        if hb : 0 ≤ i ∧ i.toNat < xs.length then
          match pairStepH fuel h va (xs.get ⟨i.toNat, hb.2⟩) with
          | none => none
          | some (h1, .error _) => applyListLoopH fuel rest h1 root
          | some (h1, .ok newA) =>
            match hread h1 root with
            | some (.listC xs1) =>
              applyListLoopH fuel rest
                (hwrite h1 root (.listC (xs1.set i.toNat newA))) root
            | _ => none
        else applyListLoopH fuel rest h root
      | _ => none
termination_by structural n _ _ _ => n

/-- Heap model of `_merge_dicts` (lines 211-230): deep-copy the original
dict at `origA`, then fold the entries of the patch dict at `pA` into the
copy. -/
def mergeDictsH : Nat → Heap → Nat → Nat → Option (Heap × Nat)
  | 0, _, _, _ => none
  | fuel + 1, h, origA, pA =>
    match hread h pA with
    | some (.dictC pes) =>
      match deepcopyH fuel h origA with
      | none => none
      | some (h1, r) =>
        match mergeLoopH fuel pes h1 r with
        | none => none
        | some h2 => some (h2, r)
    | _ => none
termination_by structural n _ _ _ => n

/-- Heap model of the loop of `_merge_dicts` (lines 224-228): when both the
copy's entry and the patch's entry hold dicts, merge recursively; otherwise
overwrite or insert. -/
def mergeLoopH : Nat → List (String × Nat) → Heap → Nat → Option Heap
  | 0, _, _, _ => none
  | _ + 1, [], h, _ => some h
  | fuel + 1, (key, va) :: rest, h, root =>
    match hread h root with
    | some (.dictC m) =>
      match alookup m key with
      | some ra =>
        match hread h ra, hread h va with
        | some (.dictC _), some (.dictC _) =>
          match mergeDictsH fuel h ra va with
          | none => none
          | some (h1, r1) =>
            match hread h1 root with
            | some (.dictC m1) =>
              mergeLoopH fuel rest (hwrite h1 root (.dictC (aset m1 key r1))) root
            | _ => none
        | _, _ => mergeLoopH fuel rest (hwrite h root (.dictC (aset m key va))) root
      | none => mergeLoopH fuel rest (hwrite h root (.dictC (aset m key va))) root
    | _ => none
termination_by structural n _ _ _ => n

end

/-- Frame property of a heap computation: the heap only grew with fresh
objects, and every address allocated before the call reads back unchanged. -/
def Frame (h h2 : Heap) : Prop :=
  h.next ≤ h2.next ∧ ∀ b, b < h.next → hread h2 b = hread h b

/-- Frame property away from one address `r`: the freshly-allocated copy a
loop mutates in place. -/
def FrameW (r : Nat) (h h2 : Heap) : Prop :=
  h.next ≤ h2.next ∧ ∀ b, b < h.next → b ≠ r → hread h2 b = hread h b

/-
Association-list lemmas shared by both models.
-/

theorem alookup_aset_self {α β : Type} [DecidableEq α] (l : List (α × β))
    (k : α) (v : β) : alookup (aset l k v) k = some v := by
  induction l with
  | nil => simp [aset, alookup]
  | cons hd tl ih =>
    obtain ⟨k1, v1⟩ := hd
    by_cases hk : k1 = k
    · simp [aset, hk, alookup]
    · simp [aset, hk, alookup, ih]

theorem alookup_aset_ne {α β : Type} [DecidableEq α] (l : List (α × β))
    {k k2 : α} (v : β) (hne : k2 ≠ k) :
    alookup (aset l k v) k2 = alookup l k2 := by
  induction l with
  | nil => simp [aset, alookup, Ne.symm hne]
  | cons hd tl ih =>
    obtain ⟨k1, v1⟩ := hd
    by_cases hk : k1 = k
    · subst hk
      simp [aset, alookup, Ne.symm hne]
    · simp [aset, hk, alookup, ih]

theorem aset_absent {α β : Type} [DecidableEq α] {l : List (α × β)} {k : α}
    (v : β) (h : alookup l k = none) : aset l k v = l ++ [(k, v)] := by
  induction l with
  | nil => simp [aset]
  | cons hd tl ih =>
    obtain ⟨k1, v1⟩ := hd
    by_cases hk : k1 = k
    · simp [alookup, hk] at h
    · simp [alookup, hk] at h
      simp [aset, hk, ih h]

/-
Claim theorems over the pure value model.
-/

/-- C2: applying a patch whose override set is empty returns the original
value unchanged, for record, mapping and sequence originals (and indeed for
scalar originals too, since an empty `data` has no `value` entry). -/
theorem C2_identity_patch (v : Val) : applyVal [] v = .ok v := by
  cases v <;> simp [applyVal, applyModelGo, applyDictGo, alookup]

/-- Helper for C5: the `_partial_base_model` loop leaves the field
assignment untouched when no patch key is an attribute. -/
theorem applyModelGo_no_attr : ∀ (data fs : List (String × Val)),
    (∀ kv ∈ data, alookup fs kv.1 = none) → applyModelGo data fs = .ok fs := by
  intro data
  induction data with
  | nil => intro fs _; simp [applyModelGo]
  | cons hd tl ih =>
    intro fs h
    obtain ⟨k, v⟩ := hd
    have hk : alookup fs k = none := h (k, v) (by simp)
    rw [applyModelGo]
    simp only [hk]
    exact ih fs (fun kv hkv => h kv (by simp [hkv]))

/-- Helper for C5: inside the `_partial_base_model` loop, an entry whose key
is not an attribute of the instance is skipped without any effect: the result
(and any raised error) is the same as if the entry were absent from the
patch.  Keys of the field assignment are stable along the loop (`setattr`
only updates existing fields here), so the guard is checked at the entry of
the call. -/
theorem applyModelGo_skip_unknown (y : String) (v : Val) (d2 : List (String × Val)) :
    ∀ (d1 fs : List (String × Val)), alookup fs y = none →
      applyModelGo (d1 ++ (y, v) :: d2) fs = applyModelGo (d1 ++ d2) fs := by
  intro d1
  induction d1 with
  | nil =>
    intro fs hy
    rw [List.nil_append, List.nil_append, applyModelGo]
    simp only [hy]
  | cons hd rest ih =>
    intro fs hy
    obtain ⟨k, w⟩ := hd
    rw [List.cons_append, List.cons_append, applyModelGo, applyModelGo]
    cases hk : alookup fs k with
    | none => exact ih fs hy
    | some ov =>
      have hkne : k ≠ y := fun he => by rw [he, hy] at hk; exact Option.noConfusion hk
      have hpres : ∀ w2 : Val, alookup (aset fs k w2) y = none := fun w2 => by
        rw [alookup_aset_ne _ _ (Ne.symm hkne)]
        exact hy
      dsimp only
      cases w with
      | partV pd =>
        dsimp only
        by_cases hco : isComplexV ov = true
        · rw [if_pos hco, if_pos hco]
          cases happ : applyVal pd ov with
          | ok w2 => exact ih _ (hpres w2)
          | error e => rfl
        · rw [if_neg hco, if_neg hco]
          exact ih _ (hpres _)
      | listV pl =>
        dsimp only
        cases ov <;> dsimp only <;> exact ih _ (hpres _)
      | dictV pd =>
        dsimp only
        cases ov with
        | dictV od => exact ih _ (hpres _)
        | recV n2 fs2 =>
          dsimp only
          cases hchk : specNewCheck n2 (fs2.map Prod.fst) pd with
          | ok u =>
            dsimp only
            cases happ : applyVal pd (.recV n2 fs2) with
            | ok w2 => exact ih _ (hpres w2)
            | error e => rfl
          | error e => rfl
        | intV x => exact ih _ (hpres _)
        | strV x => exact ih _ (hpres _)
        | boolV x => exact ih _ (hpres _)
        | noneV => exact ih _ (hpres _)
        | listV xs => exact ih _ (hpres _)
        | partV q => exact ih _ (hpres _)
      | intV x => exact ih _ (hpres _)
      | strV x => exact ih _ (hpres _)
      | boolV x => exact ih _ (hpres _)
      | noneV => exact ih _ (hpres _)
      | recV n2 fs2 => exact ih _ (hpres _)

/-- C5: for a record original, a patch key that does not name an existing
attribute is silently ignored wherever it occurs in the patch (applying the
patch with and without that entry agree, so no error is raised by it and no
attribute is added); in particular a patch all of whose keys are unknown
returns the record with its fields unchanged. -/
theorem C5_unknown_record_key_ignored :
    (∀ (n : String) (fs d1 d2 : List (String × Val)) (y : String) (v : Val),
      alookup fs y = none →
      applyVal (d1 ++ (y, v) :: d2) (.recV n fs) =
        applyVal (d1 ++ d2) (.recV n fs)) ∧
    (∀ (n : String) (fs data : List (String × Val)),
      (∀ kv ∈ data, alookup fs kv.1 = none) →
      applyVal data (.recV n fs) = .ok (.recV n fs)) := by
  refine ⟨?_, ?_⟩
  · intro n fs d1 d2 y v hy
    simp only [applyVal]
    rw [applyModelGo_skip_unknown y v d2 d1 fs hy]
  · intro n fs data h
    simp [applyVal, applyModelGo_no_attr data fs h]

/-- C5 witness: record {x: 1} patched with {y: 2} is unchanged and gains no
attribute `y`. -/
theorem C5_witness :
    applyVal [("y", Val.intV 2)] (.recV "R" [("x", Val.intV 1)]) =
      .ok (.recV "R" [("x", Val.intV 1)]) :=
  C5_unknown_record_key_ignored.2 "R" _ _ (by
    intro kv hkv
    simp at hkv
    subst hkv
    simp [alookup])

/-- C3 counterexample: patching the empty mapping with an override whose
value is a `Partial` (PatchSpec) at the absent key "k" stores the `Partial`
object itself as the entry; it is not applied to an absent origin (the
scalar rule would have produced `intV 5`, which the stored entry is not). -/
theorem C3_counterexample :
    applyVal [("k", Val.partV [("value", Val.intV 5)])] (.dictV []) =
      .ok (.dictV [("k", Val.partV [("value", Val.intV 5)])]) ∧
    Val.partV [("value", Val.intV 5)] ≠ Val.intV 5 :=
  ⟨by simp [applyVal, applyDictGo, alookup, aset], fun h => Val.noConfusion h⟩

/-- C3 amended: for a mapping original, an override whose value is a
PatchSpec is applied recursively only when its key is present; at an absent
key the PatchSpec object itself is inserted as the new entry, unapplied. -/
theorem C3_amended_absent_key_stores_spec (m : List (String × Val))
    (k : String) (d : List (String × Val)) (h : alookup m k = none) :
    applyVal [(k, Val.partV d)] (.dictV m) =
      .ok (.dictV (m ++ [(k, Val.partV d)])) := by
  rw [applyVal]
  rw [applyDictGo]
  simp only [h]
  rw [applyDictGo]
  simp [aset_absent _ h]

/-- C3 witness for the amended statement, at mapping {x: 1} and an absent
key "k". -/
theorem C3_amended_witness :
    alookup [("x", Val.intV 1)] "k" = none ∧
    applyVal [("k", Val.partV [("value", Val.intV 5)])]
        (.dictV [("x", Val.intV 1)]) =
      .ok (.dictV [("x", Val.intV 1), ("k", Val.partV [("value", Val.intV 5)])]) := by
  refine ⟨by simp [alookup], ?_⟩
  have := C3_amended_absent_key_stores_spec [("x", Val.intV 1)] "k"
    [("value", Val.intV 5)] (by simp [alookup])
  simpa using this

/-- C9: for a sequence original, a patch with no `items` entry, or whose
`items` value is neither a dict nor a list, returns the sequence unchanged
and raises no error. -/
theorem C9_malformed_items_ignored (data : List (String × Val)) (l : List Val)
    (h : ∀ it, alookup data "items" = some it →
      isDictV it = false ∧ isListV it = false) :
    applyVal data (.listV l) = .ok (.listV l) := by
  rw [applyVal]
  cases hitem : alookup data "items" with
  | none => simp
  | some it =>
    cases it with
    | dictV es => exact absurd (h _ hitem).1 (by simp [isDictV])
    | listV es => exact absurd (h _ hitem).2 (by simp [isListV])
    | intV x => simp
    | strV x => simp
    | boolV x => simp
    | noneV => simp
    | recV n2 fs2 => simp
    | partV d => simp

/-- C9 witness: a scalar `items` directive (here the int 0) leaves the
sequence [7] unchanged. -/
theorem C9_witness :
    applyVal [("items", Val.intV 0)] (.listV [Val.intV 7]) =
      .ok (.listV [Val.intV 7]) :=
  C9_malformed_items_ignored _ _ (by
    intro it hit
    simp [alookup] at hit
    subst hit
    simp [isDictV, isListV])

/-- C10: a `Partial` built by subscripting the generic class directly
(`Partial[User](**overrides)`) reaches `__new__` with `cls = Partial`, whose
`__orig_bases__` holds only `Generic[T]`; the bound-type scan finds no
`Partial[...]` base, so no validation happens and construction succeeds for
every override set, whatever the declared schemas. -/
theorem C10_direct_subscription_skips_validation :
    findOriginType [TypeExpr.genericBase] = none ∧
    ∀ (schemas : String → Option (List String)) (kwargs : List (String × Val)),
      specNew [TypeExpr.genericBase] schemas kwargs = .ok (.partV kwargs) :=
  ⟨rfl, fun _ _ => rfl⟩

/-- C4 counterexample: a validation error IS raised during `Apply`.  When a
plain dict patches a nested-model attribute, `_partial_base_model` line 123
builds a shape-bound `TypedPartial` whose `__new__` rejects keys that are
not declared fields of the nested model: here `zip` is not a field of
`Address`, and the `ValueError` escapes the `value` call. -/
theorem C4_counterexample_validation_during_apply :
    applyVal [("addr", Val.dictV [("zip", Val.intV 1)])]
      (.recV "User" [("addr", Val.recV "Address" [("street", Val.strV "A")])]) =
      .error ("Address", ["zip"]) := by
  simp [applyVal, applyModelGo, alookup, specNewCheck, invalidKeys, isComplexV]

/-- C4 amended: construction through a shape-bound class raises the
validation error, naming the shape and exactly the invalid keys, precisely
when some override key is not a declared field; an unbound construction
(direct subscription) never validates; but the same validation error can be
raised during `Apply`, when a plain mapping patches a nested-record
attribute and carries keys that are not fields of the nested shape. -/
theorem C4_construct_validation (schemas : String → Option (List String))
    (name : String) (fields : List String) (kwargs : List (String × Val))
    (hs : schemas name = some fields) :
    specNew (createTypedSpecBases name) schemas kwargs =
      (if invalidKeys fields (kwargs.map Prod.fst) = [] then .ok (.partV kwargs)
       else .error (name, invalidKeys fields (kwargs.map Prod.fst))) ∧
    (∀ (schemas2 : String → Option (List String)) (kwargs2 : List (String × Val)),
      specNew [TypeExpr.genericBase] schemas2 kwargs2 = .ok (.partV kwargs2)) ∧
    applyVal [("addr", Val.dictV [("zip", Val.intV 1)])]
      (.recV "User" [("addr", Val.recV "Address" [("street", Val.strV "A")])]) =
      .error ("Address", ["zip"]) := by
  refine ⟨?_, fun _ _ => rfl, by
    simp [applyVal, applyModelGo, alookup, specNewCheck, invalidKeys, isComplexV]⟩
  by_cases hinv : invalidKeys fields (kwargs.map Prod.fst) = [] <;>
    simp [specNew, createTypedSpecBases, findOriginType, hs, specNewCheck,
      List.isEmpty_iff, hinv]

/-- C4 witness: shape {x, y}, override {z: 1}: construction fails listing
exactly `z`. -/
theorem C4_witness :
    (fun n => if n = "Shape" then some ["x", "y"] else none) "Shape" =
      some ["x", "y"] ∧
    specNew (createTypedSpecBases "Shape")
        (fun n => if n = "Shape" then some ["x", "y"] else none)
        [("z", Val.intV 1)] =
      .error ("Shape", ["z"]) := by
  refine ⟨by simp, ?_⟩
  have := (C4_construct_validation
    (fun n => if n = "Shape" then some ["x", "y"] else none)
    "Shape" ["x", "y"] [("z", Val.intV 1)] (by simp)).1
  simpa [invalidKeys] using this

/-- C6: a plain mapping patching a record attribute that currently holds a
nested record is turned into a shape-bound patch of the nested record and
applied recursively: the overridden nested field takes the new value, every
other nested field is unchanged. -/
theorem C6_nested_record_plain_mapping (s c : String) (y : Val) :
    applyVal [("addr", Val.dictV [("city", y)])]
      (.recV "User" [("addr", Val.recV "Address"
        [("street", Val.strV s), ("city", Val.strV c)])]) =
      .ok (.recV "User" [("addr", Val.recV "Address"
        [("street", Val.strV s), ("city", y)])]) := by
  cases y <;>
    simp [applyVal, applyModelGo, alookup, aset, specNewCheck, invalidKeys,
      isComplexV]

/-
C7: characterization of `_merge_dicts`.
-/

/-- The cons equation of `_merge_dicts`, phrased through `mergeStep`. -/
theorem mergeDicts_cons (a : List (String × Val)) (k1 : String) (v1 : Val)
    (tl : List (String × Val)) :
    mergeDicts a ((k1, v1) :: tl) = mergeDicts (mergeStep a k1 v1) tl := by
  cases h1 : alookup a k1 with
  | none => cases v1 <;> simp [mergeDicts, mergeStep, h1]
  | some x => cases x <;> cases v1 <;> simp [mergeDicts, mergeStep, h1]

/-- Reading the key a merge step just wrote gives exactly the spec's
one-key description of mapping-merge. -/
theorem alookup_mergeStep_self (a : List (String × Val)) (k1 : String)
    (v1 : Val) :
    alookup (mergeStep a k1 v1) k1 = mergeSpecLookup (alookup a k1) (some v1) := by
  cases h1 : alookup a k1 with
  | none => cases v1 <;> simp [mergeStep, mergeSpecLookup, h1, alookup_aset_self]
  | some x =>
    cases x <;> cases v1 <;>
      simp [mergeStep, mergeSpecLookup, h1, alookup_aset_self]

/-- A merge step leaves every other key alone. -/
theorem alookup_mergeStep_ne (a : List (String × Val)) {k1 k : String}
    (v1 : Val) (hne : k ≠ k1) :
    alookup (mergeStep a k1 v1) k = alookup a k := by
  cases h1 : alookup a k1 with
  | none => cases v1 <;> simp [mergeStep, h1, alookup_aset_ne _ _ hne]
  | some x => cases x <;> cases v1 <;> simp [mergeStep, h1, alookup_aset_ne _ _ hne]

/-- Keys the patch dict lacks keep the original's value. -/
theorem mergeDicts_alookup_absent :
    ∀ (b a : List (String × Val)) (k : String), k ∉ b.map Prod.fst →
      alookup (mergeDicts a b) k = alookup a k := by
  intro b
  induction b with
  | nil => intro a k _; simp [mergeDicts]
  | cons hd tl ih =>
    intro a k hk
    obtain ⟨k1, v1⟩ := hd
    simp only [List.map_cons, List.mem_cons, not_or] at hk
    rw [mergeDicts_cons, ih _ k hk.2, alookup_mergeStep_ne _ _ hk.1]

/-- Pointwise characterization of `_merge_dicts` against the spec's
description, for a patch dict with no duplicate keys (a Python dict). -/
theorem mergeDicts_alookup :
    ∀ (b : List (String × Val)), (b.map Prod.fst).Nodup →
      ∀ (a : List (String × Val)) (k : String),
        alookup (mergeDicts a b) k = mergeSpecLookup (alookup a k) (alookup b k) := by
  intro b
  induction b with
  | nil => intro _ a k; simp [mergeDicts, alookup, mergeSpecLookup]
  | cons hd tl ih =>
    intro hnd a k
    obtain ⟨k1, v1⟩ := hd
    simp only [List.map_cons, List.nodup_cons] at hnd
    rw [mergeDicts_cons]
    by_cases hk : k = k1
    · subst hk
      rw [mergeDicts_alookup_absent tl _ k hnd.1, alookup_mergeStep_self]
      simp [alookup]
    · rw [ih hnd.2 (mergeStep a k1 v1) k, alookup_mergeStep_ne _ _ hk]
      simp [alookup, hk, Ne.symm hk]

/-- C7: mapping-merge is right-biased and deep.  Read at any key, the merge
of `a` with a duplicate-free patch `b` is: the recursive merge when both
sides hold dicts at that key, `b`'s value otherwise, and `a`'s value where
`b` lacks the key; in particular patching {"a": {"b": 1, "c": 2}} with
{"a": {"b": 99}} yields {"a": {"b": 99, "c": 2}}. -/
theorem C7_mapping_merge_right_biased_deep :
    (∀ (b : List (String × Val)), (b.map Prod.fst).Nodup →
      ∀ (a : List (String × Val)) (k : String),
        alookup (mergeDicts a b) k = mergeSpecLookup (alookup a k) (alookup b k)) ∧
    applyVal [("a", Val.dictV [("b", Val.intV 99)])]
        (.dictV [("a", Val.dictV [("b", Val.intV 1), ("c", Val.intV 2)])]) =
      .ok (.dictV [("a", Val.dictV [("b", Val.intV 99), ("c", Val.intV 2)])]) :=
  ⟨mergeDicts_alookup, by
    simp [applyVal, applyDictGo, alookup, aset, mergeDicts]⟩

/-- C7 witness: the characterization applied at the spec's example, at the
overridden key. -/
theorem C7_witness :
    ((([("b", Val.intV 99)] : List (String × Val)).map Prod.fst).Nodup) ∧
    alookup (mergeDicts [("b", Val.intV 1), ("c", Val.intV 2)]
        [("b", Val.intV 99)]) "b" = some (Val.intV 99) := by
  refine ⟨by simp, ?_⟩
  rw [C7_mapping_merge_right_biased_deep.1 [("b", Val.intV 99)] (by simp)]
  simp [alookup, mergeSpecLookup]

/-- C8: index-targeted sequence edits.  A numeric in-bounds index replaces
(or, per the dispatch, merges into) the element at that position; an
out-of-bounds or non-numeric key is skipped silently; in particular
{"items": {"1": 99}} on [10,20,30] yields [10,99,30] while {"items":
{"5": 99, "x": 7}} leaves it unchanged. -/
theorem C8_sequence_index_edit :
    (applyVal [("items", Val.dictV [("1", Val.intV 99)])]
        (.listV [Val.intV 10, Val.intV 20, Val.intV 30]) =
      .ok (.listV [Val.intV 10, Val.intV 99, Val.intV 30])) ∧
    (applyVal [("items", Val.dictV [("5", Val.intV 99), ("x", Val.intV 7)])]
        (.listV [Val.intV 10, Val.intV 20, Val.intV 30]) =
      .ok (.listV [Val.intV 10, Val.intV 20, Val.intV 30])) ∧
    (∀ (l : List Val) (ks : String) (pv : Val), pyInt ks = none →
      applyVal [("items", Val.dictV [(ks, pv)])] (.listV l) = .ok (.listV l)) ∧
    (∀ (l : List Val) (ks : String) (pv : Val) (i : Int), pyInt ks = some i →
      ¬(0 ≤ i ∧ i.toNat < l.length) →
      applyVal [("items", Val.dictV [(ks, pv)])] (.listV l) = .ok (.listV l)) ∧
    (∀ (l : List Val) (ks : String) (pv : Val) (i : Int), pyInt ks = some i →
      0 ≤ i → i.toNat < l.length → isPlainV pv = true →
      applyVal [("items", Val.dictV [(ks, pv)])] (.listV l) =
        .ok (.listV (l.set i.toNat pv))) := by
  refine ⟨?_, ?_, ?_, ?_, ?_⟩
  · simp [applyVal, applyListGo, alookup, pyInt, validDigits, digitsRest,
      digitsToNat]
  · simp [applyVal, applyListGo, alookup, pyInt, validDigits, digitsRest,
      digitsToNat]
  · intro l ks pv hks
    simp [applyVal, applyListGo, alookup, hks]
  · intro l ks pv i hks hb
    simp [applyVal, applyListGo, alookup, hks, hb]
  · intro l ks pv i hks h0 hlen hplain
    cases pv <;> simp [isPlainV] at hplain <;>
      simp [applyVal, applyListGo, alookup, hks, h0, hlen]

/-- C8 witness: the non-numeric key "x" is skipped on [1]. -/
theorem C8_witness :
    pyInt "x" = none ∧
    applyVal [("items", Val.dictV [("x", Val.intV 5)])] (.listV [Val.intV 1]) =
      .ok (.listV [Val.intV 1]) :=
  ⟨by decide, C8_sequence_index_edit.2.2.1 [Val.intV 1] "x" (Val.intV 5) (by decide)⟩

/-
C1: the frame calculus for the heap model.
-/

theorem frame_refl (h : Heap) : Frame h h := ⟨le_refl _, fun _ _ => rfl⟩

theorem frame_trans {h1 h2 h3 : Heap} (a : Frame h1 h2) (b : Frame h2 h3) :
    Frame h1 h3 :=
  ⟨le_trans a.1 b.1,
   fun x hx => (b.2 x (lt_of_lt_of_le hx a.1)).trans (a.2 x hx)⟩

theorem frame_toW {h1 h2 : Heap} (r : Nat) (a : Frame h1 h2) : FrameW r h1 h2 :=
  ⟨a.1, fun b hb _ => a.2 b hb⟩

theorem frameW_trans {r : Nat} {h1 h2 h3 : Heap} (a : FrameW r h1 h2)
    (b : FrameW r h2 h3) : FrameW r h1 h3 :=
  ⟨le_trans a.1 b.1,
   fun x hx hr => (b.2 x (lt_of_lt_of_le hx a.1) hr).trans (a.2 x hx hr)⟩

theorem frame_frameW {r : Nat} {h1 h2 h3 : Heap} (a : Frame h1 h2)
    (b : FrameW r h2 h3) : FrameW r h1 h3 :=
  frameW_trans (frame_toW r a) b

/-- A computation that only writes a fresh address preserves every old one. -/
theorem frameW_fresh_frame {h1 h2 h3 : Heap} {r : Nat} (a : Frame h1 h2)
    (hr : h1.next ≤ r) (b : FrameW r h2 h3) : Frame h1 h3 :=
  ⟨le_trans a.1 b.1, fun x hx => by
    have hxr : x ≠ r := by omega
    exact (b.2 x (lt_of_lt_of_le hx a.1) hxr).trans (a.2 x hx)⟩

theorem hread_hwrite_ne {h : Heap} {r : Nat} {c : HCell} {b : Nat}
    (hne : b ≠ r) : hread (hwrite h r c) b = hread h b := by
  unfold hread hwrite
  exact alookup_aset_ne _ _ hne

theorem hwrite_frameW (h : Heap) (r : Nat) (c : HCell) :
    FrameW r h (hwrite h r c) :=
  ⟨le_refl _, fun b _ hb => hread_hwrite_ne hb⟩

theorem alookup_append_one_ne {α β : Type} [DecidableEq α]
    (l : List (α × β)) {n b : α} (c : β) (hne : b ≠ n) :
    alookup (l ++ [(n, c)]) b = alookup l b := by
  induction l with
  | nil => simp [alookup, Ne.symm hne]
  | cons hd tl ih =>
    obtain ⟨k1, v1⟩ := hd
    by_cases hk : k1 = b <;> simp [alookup, hk, ih]

theorem halloc_frame (h : Heap) (c : HCell) : Frame h (halloc h c).1 :=
  ⟨by simp [halloc], fun b hb => by
    show alookup (h.mem ++ [(h.next, c)]) b = alookup h.mem b
    exact alookup_append_one_ne _ _ (by omega)⟩

/-
One induction step per heap function: each lemma assumes the frame
statements at fuel `n` for its callees and derives the statement at fuel
`n + 1`.  The master theorem `heap_frame` ties them together by induction on
fuel.
-/

theorem step_deepcopyH (n : Nat)
    (ihB : ∀ h es out, deepcopyFields n h es = some out → Frame h out.1)
    (ihC : ∀ h xs out, deepcopyElems n h xs = some out → Frame h out.1) :
    ∀ h a out, deepcopyH (n + 1) h a = some out → Frame h out.1 := by
  intro h a out hstep
  simp only [deepcopyH] at hstep
  split at hstep
  · rw [Option.some.injEq] at hstep
    subst hstep
    exact frame_refl h
  · split at hstep
    · exact Option.noConfusion hstep
    · next h1 es1 heq =>
      rw [Option.some.injEq] at hstep
      subst hstep
      exact frame_trans (ihB _ _ _ heq) (halloc_frame h1 _)
  · split at hstep
    · exact Option.noConfusion hstep
    · next h1 xs1 heq =>
      rw [Option.some.injEq] at hstep
      subst hstep
      exact frame_trans (ihC _ _ _ heq) (halloc_frame h1 _)
  · split at hstep
    · exact Option.noConfusion hstep
    · next h1 es1 heq =>
      rw [Option.some.injEq] at hstep
      subst hstep
      exact frame_trans (ihB _ _ _ heq) (halloc_frame h1 _)
  · split at hstep
    · exact Option.noConfusion hstep
    · next h1 es1 heq =>
      rw [Option.some.injEq] at hstep
      subst hstep
      exact frame_trans (ihB _ _ _ heq) (halloc_frame h1 _)
  · exact Option.noConfusion hstep

theorem step_deepcopyFields (n : Nat)
    (ihA : ∀ h a out, deepcopyH n h a = some out → Frame h out.1)
    (ihB : ∀ h es out, deepcopyFields n h es = some out → Frame h out.1) :
    ∀ h es out, deepcopyFields (n + 1) h es = some out → Frame h out.1 := by
  intro h es out hstep
  cases es with
  | nil =>
    simp only [deepcopyFields] at hstep
    rw [Option.some.injEq] at hstep
    subst hstep
    exact frame_refl h
  | cons hd rest =>
    obtain ⟨k, a⟩ := hd
    simp only [deepcopyFields] at hstep
    split at hstep
    · exact Option.noConfusion hstep
    · next h1 a1 heq1 =>
      split at hstep
      · exact Option.noConfusion hstep
      · next h2 rest1 heq2 =>
        rw [Option.some.injEq] at hstep
        subst hstep
        exact frame_trans (ihA h a (h1, a1) heq1) (ihB h1 rest (h2, rest1) heq2)

theorem step_deepcopyElems (n : Nat)
    (ihA : ∀ h a out, deepcopyH n h a = some out → Frame h out.1)
    (ihC : ∀ h xs out, deepcopyElems n h xs = some out → Frame h out.1) :
    ∀ h xs out, deepcopyElems (n + 1) h xs = some out → Frame h out.1 := by
  intro h xs out hstep
  cases xs with
  | nil =>
    simp only [deepcopyElems] at hstep
    rw [Option.some.injEq] at hstep
    subst hstep
    exact frame_refl h
  | cons a rest =>
    simp only [deepcopyElems] at hstep
    split at hstep
    · exact Option.noConfusion hstep
    · next h1 a1 heq1 =>
      split at hstep
      · exact Option.noConfusion hstep
      · next h2 rest1 heq2 =>
        rw [Option.some.injEq] at hstep
        subst hstep
        exact frame_trans (ihA h a (h1, a1) heq1) (ihC h1 rest (h2, rest1) heq2)

theorem step_deepcopy_fresh (n : Nat)
    (ihB : ∀ h es out, deepcopyFields n h es = some out → Frame h out.1)
    (ihC : ∀ h xs out, deepcopyElems n h xs = some out → Frame h out.1) :
    ∀ h a out, deepcopyH (n + 1) h a = some out →
      (∀ s, hread h a ≠ some (.scalarC s)) → h.next ≤ out.2 := by
  intro h a out hstep hns
  simp only [deepcopyH] at hstep
  split at hstep
  · next s heq => exact absurd heq (hns s)
  · split at hstep
    · exact Option.noConfusion hstep
    · next h1 es1 heq =>
      rw [Option.some.injEq] at hstep
      subst hstep
      have := (ihB _ _ _ heq).1
      simpa [halloc] using this
  · split at hstep
    · exact Option.noConfusion hstep
    · next h1 xs1 heq =>
      rw [Option.some.injEq] at hstep
      subst hstep
      have := (ihC _ _ _ heq).1
      simpa [halloc] using this
  · split at hstep
    · exact Option.noConfusion hstep
    · next h1 es1 heq =>
      rw [Option.some.injEq] at hstep
      subst hstep
      have := (ihB _ _ _ heq).1
      simpa [halloc] using this
  · split at hstep
    · exact Option.noConfusion hstep
    · next h1 es1 heq =>
      rw [Option.some.injEq] at hstep
      subst hstep
      have := (ihB _ _ _ heq).1
      simpa [halloc] using this
  · exact Option.noConfusion hstep

theorem step_mergeDictsH (n : Nat)
    (ihA : ∀ h a out, deepcopyH n h a = some out → Frame h out.1)
    (ihK : ∀ h a out, deepcopyH n h a = some out →
      (∀ s, hread h a ≠ some (.scalarC s)) → h.next ≤ out.2)
    (ihL : ∀ entries h root out, mergeLoopH n entries h root = some out →
      FrameW root h out) :
    ∀ h a pA out, (∀ s, hread h a ≠ some (.scalarC s)) →
      mergeDictsH (n + 1) h a pA = some out → Frame h out.1 := by
  intro h a pA out hns hstep
  simp only [mergeDictsH] at hstep
  split at hstep
  · split at hstep
    · exact Option.noConfusion hstep
    · next h1 r heq1 =>
      split at hstep
      · exact Option.noConfusion hstep
      · next h2 heq2 =>
        rw [Option.some.injEq] at hstep
        subst hstep
        exact frameW_fresh_frame (ihA _ _ _ heq1) (ihK _ _ _ heq1 hns)
          (ihL _ _ _ _ heq2)
  · exact Option.noConfusion hstep

theorem step_mergeLoopH (n : Nat)
    (ihJ : ∀ h a pA out, (∀ s, hread h a ≠ some (.scalarC s)) →
      mergeDictsH n h a pA = some out → Frame h out.1)
    (ihL : ∀ entries h root out, mergeLoopH n entries h root = some out →
      FrameW root h out) :
    ∀ entries h root out, mergeLoopH (n + 1) entries h root = some out →
      FrameW root h out := by
  intro entries h root out hstep
  cases entries with
  | nil =>
    simp only [mergeLoopH] at hstep
    rw [Option.some.injEq] at hstep
    subst hstep
    exact ⟨le_refl _, fun _ _ _ => rfl⟩
  | cons hd rest =>
    obtain ⟨key, va⟩ := hd
    simp only [mergeLoopH] at hstep
    split at hstep
    · next m heqroot =>
      split at hstep
      · next ra heqra =>
        split at hstep
        · next heq1 heq2 =>
          split at hstep
          · exact Option.noConfusion hstep
          · next h1 r1 heqm =>
            split at hstep
            · next m1 heqroot1 =>
              have hm : Frame h h1 :=
                ihJ _ _ _ _ (fun s hs => by rw [heq1] at hs; simp at hs) heqm
              exact frame_frameW hm
                (frameW_trans (hwrite_frameW h1 root _) (ihL _ _ _ _ hstep))
            · exact Option.noConfusion hstep
        · exact frameW_trans (hwrite_frameW h root _) (ihL _ _ _ _ hstep)
      · exact frameW_trans (hwrite_frameW h root _) (ihL _ _ _ _ hstep)
    · exact Option.noConfusion hstep

theorem step_applyH (n : Nat)
    (ihA : ∀ h a out, deepcopyH n h a = some out → Frame h out.1)
    (ihK : ∀ h a out, deepcopyH n h a = some out →
      (∀ s, hread h a ≠ some (.scalarC s)) → h.next ≤ out.2)
    (ihE : ∀ data h root out, applyModelLoopH n data h root = some out →
      FrameW root h out.1)
    (ihG : ∀ data h root out, applyDictLoopH n data h root = some out →
      FrameW root h out.1)
    (ihI : ∀ entries h root out, applyListLoopH n entries h root = some out →
      FrameW root h out) :
    ∀ data h a out, applyH (n + 1) data h a = some out → Frame h out.1 := by
  intro data h a out hstep
  simp only [applyH] at hstep
  split at hstep
  · next nm fs heq =>
    split at hstep
    · exact Option.noConfusion hstep
    · next h1 r heq1 =>
      have hfr : Frame h h1 := ihA h a (h1, r) heq1
      have hfresh : h.next ≤ r :=
        ihK h a (h1, r) heq1 (fun s hs => by rw [heq] at hs; simp at hs)
      split at hstep
      · exact Option.noConfusion hstep
      · next h2 u heq2 =>
        rw [Option.some.injEq] at hstep
        subst hstep
        exact frameW_fresh_frame hfr hfresh (ihE data h1 r (h2, .ok u) heq2)
      · next h2 e heq2 =>
        rw [Option.some.injEq] at hstep
        subst hstep
        exact frameW_fresh_frame hfr hfresh (ihE data h1 r (h2, .error e) heq2)
  · next m heq =>
    split at hstep
    · exact Option.noConfusion hstep
    · next h1 r heq1 =>
      have hfr : Frame h h1 := ihA h a (h1, r) heq1
      have hfresh : h.next ≤ r :=
        ihK h a (h1, r) heq1 (fun s hs => by rw [heq] at hs; simp at hs)
      split at hstep
      · exact Option.noConfusion hstep
      · next h2 u heq2 =>
        rw [Option.some.injEq] at hstep
        subst hstep
        exact frameW_fresh_frame hfr hfresh (ihG data h1 r (h2, .ok u) heq2)
      · next h2 e heq2 =>
        rw [Option.some.injEq] at hstep
        subst hstep
        exact frameW_fresh_frame hfr hfresh (ihG data h1 r (h2, .error e) heq2)
  · next xs heq =>
    split at hstep
    · rw [Option.some.injEq] at hstep
      subst hstep
      exact frame_refl h
    · next itemsA heqItems =>
      split at hstep
      · exact Option.noConfusion hstep
      · next h1 r heq1 =>
        have hfr : Frame h h1 := ihA h a (h1, r) heq1
        have hfresh : h.next ≤ r :=
          ihK h a (h1, r) heq1 (fun s hs => by rw [heq] at hs; simp at hs)
        split at hstep
        · next entries heqc =>
          split at hstep
          · exact Option.noConfusion hstep
          · next h2 heq2 =>
            rw [Option.some.injEq] at hstep
            subst hstep
            exact frameW_fresh_frame hfr hfresh (ihI entries h1 r h2 heq2)
        · rw [Option.some.injEq] at hstep
          subst hstep
          exact hfr
        · rw [Option.some.injEq] at hstep
          subst hstep
          exact hfr
        · exact Option.noConfusion hstep
  · rw [Option.some.injEq] at hstep
    subst hstep
    exact frame_refl h
  · exact Option.noConfusion hstep

theorem step_modelStepH (n : Nat)
    (ihD : ∀ data h a out, applyH n data h a = some out → Frame h out.1)
    (ihJ : ∀ h a pA out, (∀ s, hread h a ≠ some (.scalarC s)) →
      mergeDictsH n h a pA = some out → Frame h out.1) :
    ∀ h va ovA out, modelStepH (n + 1) h va ovA = some out → Frame h out.1 := by
  intro h va ovA out hstep
  simp only [modelStepH] at hstep
  split at hstep
  · next pd heqva =>
    split at hstep
    · exact ihD _ _ _ _ hstep
    · exact ihD _ _ _ _ hstep
    · exact ihD _ _ _ _ hstep
    · rw [Option.some.injEq] at hstep
      subst hstep
      exact frame_refl h
    · exact Option.noConfusion hstep
  · rw [Option.some.injEq] at hstep
    subst hstep
    exact frame_refl h
  · next pd heqva =>
    split at hstep
    · next heqov =>
      split at hstep
      · exact Option.noConfusion hstep
      · next h1 r heqm =>
        rw [Option.some.injEq] at hstep
        subst hstep
        exact ihJ h ovA va (h1, r) (fun s hs => by rw [heqov] at hs; simp at hs) heqm
    · next n2 fs2 heqov =>
      split at hstep
      · exact ihD _ _ _ _ hstep
      · rw [Option.some.injEq] at hstep
        subst hstep
        exact frame_refl h
    · rw [Option.some.injEq] at hstep
      subst hstep
      exact frame_refl h
    · exact Option.noConfusion hstep
  · rw [Option.some.injEq] at hstep
    subst hstep
    exact frame_refl h
  · exact Option.noConfusion hstep

theorem step_pairStepH (n : Nat)
    (ihD : ∀ data h a out, applyH n data h a = some out → Frame h out.1)
    (ihJ : ∀ h a pA out, (∀ s, hread h a ≠ some (.scalarC s)) →
      mergeDictsH n h a pA = some out → Frame h out.1) :
    ∀ h va ovA out, pairStepH (n + 1) h va ovA = some out → Frame h out.1 := by
  intro h va ovA out hstep
  simp only [pairStepH] at hstep
  split at hstep
  · exact ihD _ _ _ _ hstep
  · rw [Option.some.injEq] at hstep
    subst hstep
    exact frame_refl h
  · next pd heqva =>
    split at hstep
    · next heqov =>
      split at hstep
      · exact Option.noConfusion hstep
      · next h1 r heqm =>
        rw [Option.some.injEq] at hstep
        subst hstep
        exact ihJ h ovA va (h1, r) (fun s hs => by rw [heqov] at hs; simp at hs) heqm
    · rw [Option.some.injEq] at hstep
      subst hstep
      exact frame_refl h
    · exact Option.noConfusion hstep
  · rw [Option.some.injEq] at hstep
    subst hstep
    exact frame_refl h
  · exact Option.noConfusion hstep

theorem step_applyModelLoopH (n : Nat)
    (ihF : ∀ h va ovA out, modelStepH n h va ovA = some out → Frame h out.1)
    (ihE : ∀ data h root out, applyModelLoopH n data h root = some out →
      FrameW root h out.1) :
    ∀ data h root out, applyModelLoopH (n + 1) data h root = some out →
      FrameW root h out.1 := by
  intro data h root out hstep
  cases data with
  | nil =>
    simp only [applyModelLoopH] at hstep
    rw [Option.some.injEq] at hstep
    subst hstep
    exact ⟨le_refl _, fun _ _ _ => rfl⟩
  | cons hd rest =>
    obtain ⟨key, va⟩ := hd
    simp only [applyModelLoopH] at hstep
    split at hstep
    · next nm fs heqroot =>
      split at hstep
      · exact ihE _ _ _ _ hstep
      · next ovA heqov =>
        split at hstep
        · exact Option.noConfusion hstep
        · next h1 e heqs =>
          rw [Option.some.injEq] at hstep
          subst hstep
          exact frame_toW _ (ihF h va ovA (h1, .error e) heqs)
        · next h1 newA heqs =>
          split at hstep
          · next n1 fs1 heqroot1 =>
            exact frame_frameW (ihF h va ovA (h1, .ok newA) heqs)
              (frameW_trans (hwrite_frameW h1 root _) (ihE _ _ _ _ hstep))
          · exact Option.noConfusion hstep
    · exact Option.noConfusion hstep

theorem step_applyDictLoopH (n : Nat)
    (ihH : ∀ h va ovA out, pairStepH n h va ovA = some out → Frame h out.1)
    (ihG : ∀ data h root out, applyDictLoopH n data h root = some out →
      FrameW root h out.1) :
    ∀ data h root out, applyDictLoopH (n + 1) data h root = some out →
      FrameW root h out.1 := by
  intro data h root out hstep
  cases data with
  | nil =>
    simp only [applyDictLoopH] at hstep
    rw [Option.some.injEq] at hstep
    subst hstep
    exact ⟨le_refl _, fun _ _ _ => rfl⟩
  | cons hd rest =>
    obtain ⟨key, va⟩ := hd
    simp only [applyDictLoopH] at hstep
    split at hstep
    · next m heqroot =>
      split at hstep
      · exact frameW_trans (hwrite_frameW h root _) (ihG _ _ _ _ hstep)
      · next ovA heqov =>
        split at hstep
        · exact Option.noConfusion hstep
        · next h1 e heqs =>
          rw [Option.some.injEq] at hstep
          subst hstep
          exact frame_toW _ (ihH h va ovA (h1, .error e) heqs)
        · next h1 newA heqs =>
          split at hstep
          · next m1 heqroot1 =>
            exact frame_frameW (ihH h va ovA (h1, .ok newA) heqs)
              (frameW_trans (hwrite_frameW h1 root _) (ihG _ _ _ _ hstep))
          · exact Option.noConfusion hstep
    · exact Option.noConfusion hstep

theorem step_applyListLoopH (n : Nat)
    (ihH : ∀ h va ovA out, pairStepH n h va ovA = some out → Frame h out.1)
    (ihI : ∀ entries h root out, applyListLoopH n entries h root = some out →
      FrameW root h out) :
    ∀ entries h root out, applyListLoopH (n + 1) entries h root = some out →
      FrameW root h out := by
  intro entries h root out hstep
  cases entries with
  | nil =>
    simp only [applyListLoopH] at hstep
    rw [Option.some.injEq] at hstep
    subst hstep
    exact ⟨le_refl _, fun _ _ _ => rfl⟩
  | cons hd rest =>
    obtain ⟨ks, va⟩ := hd
    simp only [applyListLoopH] at hstep
    split at hstep
    · exact ihI _ _ _ _ hstep
    · next i heqi =>
      split at hstep
      · next xs heqroot =>
        split at hstep
        · split at hstep
          · exact Option.noConfusion hstep
          · next h1 e heqs =>
            exact frameW_trans
              (frame_toW _ (ihH h va _ (h1, .error e) heqs)) (ihI _ _ _ _ hstep)
          · next h1 newA heqs =>
            split at hstep
            · next xs1 heqroot1 =>
              exact frameW_trans (frame_toW _ (ihH h va _ (h1, .ok newA) heqs))
                (frameW_trans (hwrite_frameW h1 root _) (ihI _ _ _ _ hstep))
            · exact Option.noConfusion hstep
        · exact ihI _ _ _ _ hstep
      · exact Option.noConfusion hstep

/-- The frame invariant of every heap function, by induction on fuel: each
call grows the heap only with fresh objects, every pre-existing address
reads back unchanged (for the loops: except the freshly-copied root they
mutate, which `applyH` always allocates above the caller's frontier). -/
theorem heap_frame : ∀ fuel : Nat,
    (∀ h a out, deepcopyH fuel h a = some out → Frame h out.1) ∧
    (∀ h es out, deepcopyFields fuel h es = some out → Frame h out.1) ∧
    (∀ h xs out, deepcopyElems fuel h xs = some out → Frame h out.1) ∧
    (∀ h a out, deepcopyH fuel h a = some out →
      (∀ s, hread h a ≠ some (.scalarC s)) → h.next ≤ out.2) ∧
    (∀ data h a out, applyH fuel data h a = some out → Frame h out.1) ∧
    (∀ h va ovA out, modelStepH fuel h va ovA = some out → Frame h out.1) ∧
    (∀ h va ovA out, pairStepH fuel h va ovA = some out → Frame h out.1) ∧
    (∀ h a pA out, (∀ s, hread h a ≠ some (.scalarC s)) →
      mergeDictsH fuel h a pA = some out → Frame h out.1) ∧
    (∀ entries h root out, mergeLoopH fuel entries h root = some out →
      FrameW root h out) ∧
    (∀ data h root out, applyModelLoopH fuel data h root = some out →
      FrameW root h out.1) ∧
    (∀ data h root out, applyDictLoopH fuel data h root = some out →
      FrameW root h out.1) ∧
    (∀ entries h root out, applyListLoopH fuel entries h root = some out →
      FrameW root h out) := by
  intro fuel
  induction fuel with
  | zero =>
    refine ⟨fun h a out hstep => ?_, fun h es out hstep => ?_,
      fun h xs out hstep => ?_, fun h a out hstep _ => ?_,
      fun data h a out hstep => ?_, fun h va ovA out hstep => ?_,
      fun h va ovA out hstep => ?_, fun h a pA out _ hstep => ?_,
      fun entries h root out hstep => ?_, fun data h root out hstep => ?_,
      fun data h root out hstep => ?_, fun entries h root out hstep => ?_⟩ <;>
      (simp only [deepcopyH, deepcopyFields, deepcopyElems, applyH, modelStepH,
        pairStepH, mergeDictsH, mergeLoopH, applyModelLoopH, applyDictLoopH,
        applyListLoopH] at hstep
       exact Option.noConfusion hstep)
  | succ n ih =>
    obtain ⟨ihA, ihB, ihC, ihK, ihD, ihF, ihH, ihJ, ihL, ihE, ihG, ihI⟩ := ih
    exact ⟨step_deepcopyH n ihB ihC, step_deepcopyFields n ihA ihB,
      step_deepcopyElems n ihA ihC, step_deepcopy_fresh n ihB ihC,
      step_applyH n ihA ihK ihE ihG ihI, step_modelStepH n ihD ihJ,
      step_pairStepH n ihD ihJ, step_mergeDictsH n ihA ihK ihL,
      step_mergeLoopH n ihJ ihL, step_applyModelLoopH n ihF ihE,
      step_applyDictLoopH n ihH ihG, step_applyListLoopH n ihH ihI⟩

/-- C1: `Apply` never mutates the original.  In the heap model of
`Partial.value`, whatever value the patch and the original hold and whether
the call returns a result or raises, every object that existed before the
call (every address below the allocation frontier, hence in particular every
attribute, entry and element reachable from the original) reads back exactly
as before: all writes target the deep copies made at lines 105, 142, 181 and
222 of partial.py. -/
theorem C1_apply_never_mutates (fuel : Nat) (data : List (String × Nat))
    (h : Heap) (a : Nat) (out : Heap × Except PErr Nat)
    (happly : applyH fuel data h a = some out) :
    ∀ b, b < h.next → hread out.1 b = hread h b :=
  fun b hb =>
    ((heap_frame fuel).2.2.2.2.1 data h a out happly).2 b hb

/-- C1 witness: the original dict {x: 1} at address 1 (with 0 holding the
int 1 and 2 holding the patch value 5) is byte-for-byte unchanged after
applying the patch {x: 5}; the result lives at the fresh address 3. -/
theorem C1_witness :
    applyH 10 [("x", 2)]
        { mem := [(0, HCell.scalarC (SVal.intS 1)), (1, HCell.dictC [("x", 0)]),
                  (2, HCell.scalarC (SVal.intS 5))], next := 3 } 1 =
      some ({ mem := [(0, HCell.scalarC (SVal.intS 1)), (1, HCell.dictC [("x", 0)]),
                      (2, HCell.scalarC (SVal.intS 5)),
                      (3, HCell.dictC [("x", 2)])], next := 4 }, Except.ok 3) ∧
    hread { mem := [(0, HCell.scalarC (SVal.intS 1)), (1, HCell.dictC [("x", 0)]),
                    (2, HCell.scalarC (SVal.intS 5)),
                    (3, HCell.dictC [("x", 2)])], next := 4 } 1 =
      hread { mem := [(0, HCell.scalarC (SVal.intS 1)), (1, HCell.dictC [("x", 0)]),
                      (2, HCell.scalarC (SVal.intS 5))], next := 3 } 1 := by
  refine ⟨by decide, ?_⟩
  exact C1_apply_never_mutates 10 [("x", 2)]
    { mem := [(0, HCell.scalarC (SVal.intS 1)), (1, HCell.dictC [("x", 0)]),
              (2, HCell.scalarC (SVal.intS 5))], next := 3 } 1
    ({ mem := [(0, HCell.scalarC (SVal.intS 1)), (1, HCell.dictC [("x", 0)]),
               (2, HCell.scalarC (SVal.intS 5)),
               (3, HCell.dictC [("x", 2)])], next := 4 }, Except.ok 3)
    (by decide) 1 (by decide)

end QuipuPatch
